import Mathlib

/- Shallow embedding of the markov-chord generator (src/generator.rs) over exact
   rationals.  Matrices are total functions on naturals; only indices below the
   alphabet size matter, and every matrix the model builds vanishes outside that
   square.  Panics of the Rust code are modelled as `none`; the `Result` type of
   the code is `Except String`.  The unbounded recursion of `transit_pow` is
   modelled with an explicit fuel argument, `none` standing for divergence. -/

/-- Note is `u8` in src/note.rs; the claims never exercise u8 overflow. -/
abbrev Note := ℕ

/-- Chord quality, from src/chord.rs. -/
inductive ChordQuality where
  | Maj
  | Min
  | Dom
  | Aug
  | Dim
  | HalfDim
deriving DecidableEq

/-- Chord, from src/chord.rs: root note, number of notes, quality. -/
structure Chord where
  root : Note
  note_num : ℕ
  quality : ChordQuality
deriving DecidableEq

/-- Matrices as total rational-valued functions; the model only ever reads
entries below the alphabet size. -/
abbrev Mat := ℕ → ℕ → ℚ

/-- Matrix product of n-by-n matrices (nalgebra `*` on DMatrix). -/
def matMul (n : ℕ) (a b : Mat) : Mat :=
  fun i j => ∑ k ∈ Finset.range n, a i k * b k j

/-- The n-by-n identity matrix. -/
def matId (n : ℕ) : Mat :=
  fun i j => if i = j ∧ i < n then 1 else 0

/-- Naive n-fold repeated multiplication by the base matrix. -/
def matNaivePow (n : ℕ) (t : Mat) : ℕ → Mat
  | 0 => matId n
  | k + 1 => matMul n (matNaivePow n t k) t

/-- Increment of one matrix entry (`cooccur[(i, j)] += 1.0`). -/
def bump (m : Mat) (i j : ℕ) : Mat :=
  fun a b => if a = i ∧ b = j then m a b + 1 else m a b

/-- Index of the first occurrence of a chord in a list; the value the Rust
`map_backward` hash map stores for every chord of `map_forward`. -/
def idxOf (c : Chord) : List Chord → ℕ
  | [] => 0
  | d :: rest => if d = c then 0 else idxOf c rest + 1

/-- First-seen deduplication loop of `ChordGenerator::new` building
`map_forward`. -/
def buildForward (acc : List Chord) : List Chord → List Chord
  | [] => acc
  | c :: rest => if c ∈ acc then buildForward acc rest else buildForward (acc ++ [c]) rest

/-- Last element of the nonempty list `a :: l` (`chord_seq[chord_seq.len() - 1]`). -/
def lastOf (a : Chord) : List Chord → Chord
  | [] => a
  | b :: rest => lastOf b rest

/-- Sum of column j of an n-by-n matrix (`cooccur.column(i).sum()`). -/
def colSum (n : ℕ) (m : Mat) (j : ℕ) : ℚ :=
  ∑ i ∈ Finset.range n, m i j

/-- The model: alphabet plus transition matrix, from src/generator.rs.  The
power cache is threaded explicitly through the operations below, mirroring the
`&mut self` field `transit_pow_cache`. -/
structure ChordGenerator where
  map_forward : List Chord
  transit : Mat

/-- Alphabet size N. -/
def ChordGenerator.size (g : ChordGenerator) : ℕ :=
  g.map_forward.length

/-- The transition events counted by `ChordGenerator::new`: the pairs
(`chord_seq[i]`, `chord_seq[i-1]`) for i in 1..len, then the wrap-around pair
(`chord_seq[0]`, `chord_seq[len-1]`). -/
def eventsOf (c0 : Chord) (rest : List Chord) : List (Chord × Chord) :=
  rest.zip (c0 :: rest) ++ [(c0, lastOf c0 rest)]

/-- The raw co-occurrence count matrix of `ChordGenerator::new`. -/
def cooccurOf (fwd : List Chord) (c0 : Chord) (rest : List Chord) : Mat :=
  (eventsOf c0 rest).foldl (fun m e => bump m (idxOf e.1 fwd) (idxOf e.2 fwd)) (fun _ _ => 0)

/-- The model built from a nonempty training sequence `c0 :: rest`: first-seen
alphabet, cyclic co-occurrence counts, column normalization. -/
def ChordGenerator.ofSeq (c0 : Chord) (rest : List Chord) : ChordGenerator :=
  let fwd := buildForward [] (c0 :: rest)
  let n := fwd.length
  let co := cooccurOf fwd c0 rest
  ⟨fwd, fun i j => if i < n ∧ j < n then co i j / colSum n co j else 0⟩

/-- `ChordGenerator::new`.  On an empty training sequence the Rust code indexes
`chord_seq[chord_seq.len() - 1]` and panics, modelled as `none`. -/
def ChordGenerator.new : List Chord → Option ChordGenerator
  | [] => none
  | c0 :: rest => some (ChordGenerator.ofSeq c0 rest)

/-- The `map_backward` hash map lookup (`HashMap::get`). -/
def ChordGenerator.map_backward (g : ChordGenerator) (c : Chord) : Option ℕ :=
  if c ∈ g.map_forward then some (idxOf c g.map_forward) else none

/-- The random source, an external collaborator: a stream of rationals
(intended in [0, 1)) with a position. -/
structure Rng where
  stream : ℕ → ℚ
  pos : ℕ

/-- Consume one value from the random source. -/
def Rng.advance (r : Rng) : Rng :=
  ⟨r.stream, r.pos + 1⟩

/-- Categorical choice: first index whose cumulative weight exceeds x. -/
def pickIndex (x : ℚ) : List ℚ → ℕ
  | [] => 0
  | w :: ws => if x < w then 0 else pickIndex (x - w) ws + 1

/-- Validity check of `WeightedIndex::new`: nonempty, no negative weight,
positive total. -/
def wValid (ws : List ℚ) : Bool :=
  !ws.isEmpty && ws.all (fun w => decide (0 ≤ w)) && decide (0 < ws.sum)

/-- One categorical sample (`WeightedIndex::new` + `rng.sample`), or the error
the generator raises when the weights are rejected. -/
def sampleIndexE (ws : List ℚ) (r : Rng) : Except String (ℕ × Rng) :=
  if wValid ws then Except.ok (pickIndex (r.stream r.pos * ws.sum) ws, r.advance)
  else Except.error "No chords are stored in the gererator!"

/-- The power cache `transit_pow_cache`: an association list from exponents to
matrices (HashMap with insert-on-miss only, so keys are distinct). -/
abbrev Cache := List (ℕ × Mat)

/-- `HashMap::get` on the power cache. -/
def cacheGet (n : ℕ) : Cache → Option Mat
  | [] => none
  | (k, m) :: rest => if k = n then some m else cacheGet n rest

/-- `transit_pow`: memoized binary exponentiation.  `fuel` bounds the recursion
depth; `none` models the divergence of the Rust code (which recurses
`transit_pow(0) -> transit_pow(0)` forever when given exponent 0). -/
def transitPow (fuel : ℕ) (g : ChordGenerator) (cache : Cache) (n : ℕ) : Option (Mat × Cache) :=
  match fuel with
  | 0 => none
  | f + 1 =>
    if n = 1 then some (g.transit, cache)
    else
      match cacheGet n cache with
      | some m => some (m, cache)
      | none =>
        match transitPow f g cache (n / 2) with
        | none => none
        | some (p, c1) =>
          let ans := if n % 2 = 1 then matMul g.size (matMul g.size p p) g.transit
                     else matMul g.size p p
          some (ans, (n, ans) :: c1)

/-- Error message of the index guard in `probability_on` (the formatted indices
of the Rust message are dropped). -/
def rangeErr : String :=
  "Right index is not greater than the index of chord being generated"

/-- Error message for a chord missing from the training set (the formatted
chord of the Rust message is dropped). -/
def unknownErr : String :=
  "Chord not appeared in training set."

/-- `probability_on`: the conditional distribution engine.  Returns the updated
cache along with the result; `none` models divergence inside `transit_pow`. -/
def probabilityOn (fuel : ℕ) (g : ChordGenerator) (cache : Cache) (left right : Chord)
    (right_index gen_index : ℕ) : Option (Except String (ℕ → ℚ) × Cache) :=
  if right_index ≤ gen_index then some (Except.error rangeErr, cache)
  else
    match g.map_backward left, g.map_backward right with
    | some l_ch, some r_ch =>
      match transitPow fuel g cache (right_index - gen_index) with
      | none => none
      | some (p_r_g, c1) =>
        match transitPow fuel g c1 gen_index with
        | none => none
        | some (p_g, c2) =>
          match transitPow fuel g c2 right_index with
          | none => none
          | some (p_r, c3) =>
            some (Except.ok (fun x => p_g x l_ch * p_r_g r_ch x / p_r r_ch l_ch), c3)
    | none, _ => some (Except.error unknownErr, cache)
    | _, none => some (Except.error unknownErr, cache)

/-- `generate_fill`: recursive infill over `span` interior slots.  Instead of
mutating a slice it returns the filled list on success; the caches mutated
before an error are kept, the partially written buffer is discarded by the
caller exactly as in the Rust code.  `fuel` decreases on every nesting level
and is handed to `probability_on`. -/
def generateFill (g : ChordGenerator) :
    ℕ → Cache → ℕ → Chord → Chord → Rng → Option (Except String (List Chord × Rng) × Cache)
  | 0, _, _, _, _, _ => none
  | f + 1, cache, span, left, right, r =>
    if span = 0 then some (Except.ok ([], r), cache)
    else
      match probabilityOn f g cache left right (span + 1) (span / 2 + 1) with
      | none => none
      | some (Except.error e, c1) => some (Except.error e, c1)
      | some (Except.ok v, c1) =>
        match sampleIndexE ((List.range g.size).map v) r with
        | Except.error e => some (Except.error e, c1)
        | Except.ok (gen, r1) =>
          match g.map_forward[gen]? with
          | none => none
          | some c =>
            match generateFill g f c1 (span / 2) left c r1 with
            | none => none
            | some (Except.error e, c2) => some (Except.error e, c2)
            | some (Except.ok (ls, r2), c2) =>
              match generateFill g f c2 (span - span / 2 - 1) c right r2 with
              | none => none
              | some (Except.error e, c3) => some (Except.error e, c3)
              | some (Except.ok (rs, r3), c3) => some (Except.ok (ls ++ c :: rs, r3), c3)

/-- `generate_range`: allocates `right_index - 2` interior slots and fills
them.  For `right_index < 2` the usize subtraction underflows and the Rust
code panics (debug) or aborts on the wrapped allocation (release), modelled as
`none`. -/
def generateRange (fuel : ℕ) (g : ChordGenerator) (cache : Cache) (left right : Chord)
    (right_index : ℕ) (r : Rng) : Option (Except String (List Chord × Rng) × Cache) :=
  if right_index < 2 then none
  else generateFill g fuel cache (right_index - 2) left right r

/-- Loop body of `generate`: `number` sampling steps from the current chord
index. -/
def generateLoop (g : ChordGenerator) : ℕ → ℕ → Rng → Option (Except String (List Chord × Rng))
  | _, 0, r => some (Except.ok ([], r))
  | cur, k + 1, r =>
    match sampleIndexE ((List.range g.size).map (fun i => g.transit i cur)) r with
    | Except.error e => some (Except.error e)
    | Except.ok (gen, r1) =>
      match g.map_forward[gen]? with
      | none => none
      | some c =>
        match generateLoop g gen k r1 with
        | none => none
        | some (Except.error e) => some (Except.error e)
        | some (Except.ok (rest, r2)) => some (Except.ok (c :: rest, r2))

/-- `generate`: the linear generator.  The Rust code indexes
`self.map_backward[&init_chord]`, which panics when the chord is absent from
the alphabet; the panic is modelled as `none`. -/
def ChordGenerator.generate (g : ChordGenerator) (init_chord : Chord) (number : ℕ) (r : Rng) :
    Option (Except String (List Chord × Rng)) :=
  match g.map_backward init_chord with
  | none => none
  | some i => generateLoop g i number r

/-- The naive power of the transition matrix a model's `transit_pow` is
compared against. -/
def naiveTransitPow (g : ChordGenerator) (k : ℕ) : Mat :=
  matNaivePow g.size g.transit k

/-- Well-formedness of the power cache: every entry stores the exact n-th
power of the base matrix for an exponent n of at least 2. -/
def cacheWF (g : ChordGenerator) (cache : Cache) : Prop :=
  ∀ k m, (k, m) ∈ cache → 2 ≤ k ∧ m = naiveTransitPow g k

/-- A matrix supported on the n-by-n square. -/
def msupp (n : ℕ) (m : Mat) : Prop :=
  ∀ i j, n ≤ i ∨ n ≤ j → m i j = 0

/-- A model whose transition matrix is supported on its alphabet square; true
of every model `ChordGenerator::new` builds. -/
def ChordGenerator.Supported (g : ChordGenerator) : Prop :=
  msupp g.size g.transit

/-- Observable part of a `generate_range` result: `none` for a panic or
divergence, `some none` for an error, `some (some k)` for a success of k
chords. -/
def rangeResultLen (o : Option (Except String (List Chord × Rng) × Cache)) : Option (Option ℕ) :=
  o.map fun p =>
    match p.1 with
    | Except.ok q => some q.1.length
    | Except.error _ => none

/-- Observable chord sequence of a `generate_range` result. -/
def rangeOut (o : Option (Except String (List Chord × Rng) × Cache)) : Option (Option (List Chord)) :=
  o.map fun p =>
    match p.1 with
    | Except.ok q => some q.1
    | Except.error _ => none

/-- Whether a terminated `probability_on` call returned Ok. -/
def probOk (o : Option (Except String (ℕ → ℚ) × Cache)) : Option Bool :=
  o.map fun p =>
    match p.1 with
    | Except.ok _ => true
    | Except.error _ => false

/-- The chord written "C" (root 3, major triad), per src/chord.rs tests. -/
def cC : Chord :=
  ⟨3, 3, ChordQuality.Maj⟩

/-- The chord written "G" (root 10, major triad). -/
def cG : Chord :=
  ⟨10, 3, ChordQuality.Maj⟩

/-- The chord written "Am" (root 0, minor triad). -/
def cAm : Chord :=
  ⟨0, 3, ChordQuality.Min⟩

/-- A deterministic random source whose stream is constantly 0. -/
def rng0 : Rng :=
  ⟨fun _ => 0, 0⟩

/-- The model trained on the sequence [C, G]. -/
def mCG : ChordGenerator :=
  ChordGenerator.ofSeq cC [cG]

/-- Matrix multiplication on the n-by-n square is associative. -/
theorem matMul_assoc (n : ℕ) (a b c : Mat) :
    matMul n (matMul n a b) c = matMul n a (matMul n b c) := by
  funext i j
  simp only [matMul, Finset.sum_mul, Finset.mul_sum, mul_assoc]
  exact Finset.sum_comm

/-- The identity matrix is supported on the n-by-n square. -/
theorem msupp_matId (n : ℕ) : msupp n (matId n) := by
  intro i j h
  have hc : ¬(i = j ∧ i < n) := by rintro ⟨rfl, h2⟩; omega
  simp [matId, hc]

/-- Products of supported matrices are supported. -/
theorem msupp_matMul (n : ℕ) (a b : Mat) (ha : msupp n a) (hb : msupp n b) :
    msupp n (matMul n a b) := by
  intro i j h
  simp only [matMul]
  refine Finset.sum_eq_zero fun k _ => ?_
  rcases h with h | h
  · rw [ha i k (Or.inl h), zero_mul]
  · rw [hb k j (Or.inr h), mul_zero]

/-- Left identity on supported matrices. -/
theorem matId_mul (n : ℕ) (a : Mat) (ha : msupp n a) : matMul n (matId n) a = a := by
  funext i j
  simp only [matMul, matId]
  by_cases hi : i < n
  · rw [Finset.sum_eq_single i]
    · simp [hi]
    · intro k _ hki
      rw [if_neg, zero_mul]
      rintro ⟨h1, _⟩
      exact hki h1.symm
    · intro hi2
      exact absurd (Finset.mem_range.mpr hi) hi2
  · have hz : ∀ k ∈ Finset.range n, (if i = k ∧ i < n then (1 : ℚ) else 0) * a k j = 0 := by
      intro k _
      rw [if_neg, zero_mul]
      rintro ⟨_, h2⟩
      omega
    rw [Finset.sum_eq_zero hz, ha i j (Or.inl (le_of_not_lt hi))]

/-- Right identity on supported matrices. -/
theorem mul_matId (n : ℕ) (a : Mat) (ha : msupp n a) : matMul n a (matId n) = a := by
  funext i j
  simp only [matMul, matId]
  by_cases hj : j < n
  · rw [Finset.sum_eq_single j]
    · simp [hj]
    · intro k _ hkj
      rw [if_neg, mul_zero]
      rintro ⟨h1, _⟩
      exact hkj h1
    · intro hj2
      exact absurd (Finset.mem_range.mpr hj) hj2
  · have hz : ∀ k ∈ Finset.range n, a i k * (if k = j ∧ k < n then (1 : ℚ) else 0) = 0 := by
      intro k hk
      rw [if_neg, mul_zero]
      rintro ⟨h1, _⟩
      subst h1
      exact hj (Finset.mem_range.mp hk)
    rw [Finset.sum_eq_zero hz, ha i j (Or.inr (le_of_not_lt hj))]

/-- Naive powers of a supported matrix are supported. -/
theorem msupp_matNaivePow (n : ℕ) (t : Mat) (ht : msupp n t) (k : ℕ) :
    msupp n (matNaivePow n t k) := by
  induction k with
  | zero => exact msupp_matId n
  | succ k ih => exact msupp_matMul n _ t ih ht

/-- Naive powers turn addition of exponents into matrix products. -/
theorem matNaivePow_add (n : ℕ) (t : Mat) (ht : msupp n t) (a b : ℕ) :
    matNaivePow n t (a + b) = matMul n (matNaivePow n t a) (matNaivePow n t b) := by
  induction b with
  | zero => rw [Nat.add_zero]; exact (mul_matId n _ (msupp_matNaivePow n t ht a)).symm
  | succ b ih =>
    show matNaivePow n t (a + b + 1) = _
    simp only [matNaivePow]
    rw [ih, matMul_assoc]

/-- The first naive power is the base matrix. -/
theorem matNaivePow_one (n : ℕ) (t : Mat) (ht : msupp n t) : matNaivePow n t 1 = t := by
  simp only [matNaivePow]
  exact matId_mul n t ht

/-- The successor equation of naive powers of the transition matrix. -/
theorem naiveTransitPow_succ (g : ChordGenerator) (k : ℕ) :
    naiveTransitPow g (k + 1) = matMul g.size (naiveTransitPow g k) g.transit := rfl

/-- Exponent addition for naive transition powers. -/
theorem naiveTransitPow_add (g : ChordGenerator) (hs : g.Supported) (a b : ℕ) :
    naiveTransitPow g (a + b) = matMul g.size (naiveTransitPow g a) (naiveTransitPow g b) :=
  matNaivePow_add g.size g.transit hs a b

/-- The first naive transition power is the transition matrix itself. -/
theorem naiveTransitPow_one (g : ChordGenerator) (hs : g.Supported) :
    naiveTransitPow g 1 = g.transit :=
  matNaivePow_one g.size g.transit hs

/-- The transition matrix of every model built by the constructor vanishes
outside the alphabet square. -/
theorem supported_ofSeq (c0 : Chord) (rest : List Chord) :
    (ChordGenerator.ofSeq c0 rest).Supported := by
  intro i j h
  have hsz : (ChordGenerator.ofSeq c0 rest).size = (buildForward [] (c0 :: rest)).length := rfl
  have hc : ¬(i < (buildForward [] (c0 :: rest)).length ∧ j < (buildForward [] (c0 :: rest)).length) := by
    rcases h with h | h <;> · rw [hsz] at h; omega
  show (if i < (buildForward [] (c0 :: rest)).length ∧ j < (buildForward [] (c0 :: rest)).length
      then _ else 0) = 0
  rw [if_neg hc]

/-- Models produced by `ChordGenerator::new` are supported. -/
theorem new_supported (seq : List Chord) (g : ChordGenerator)
    (hg : ChordGenerator.new seq = some g) : g.Supported := by
  cases seq with
  | nil => exact absurd hg (by simp [ChordGenerator.new])
  | cons c0 rest =>
    have : ChordGenerator.ofSeq c0 rest = g := Option.some.inj hg
    exact this ▸ supported_ofSeq c0 rest

/-- A successful cache lookup comes from a stored entry. -/
theorem cacheGet_mem (n : ℕ) : ∀ (c : Cache) (m : Mat), cacheGet n c = some m → (n, m) ∈ c := by
  intro c
  induction c with
  | nil => intro m h; exact absurd h (by simp [cacheGet])
  | cons e rest ih =>
    intro m h
    obtain ⟨k, M⟩ := e
    simp only [cacheGet] at h
    by_cases hk : k = n
    · subst hk
      rw [if_pos rfl] at h
      obtain rfl := Option.some.inj h
      exact List.mem_cons_self _ _
    · rw [if_neg hk] at h
      exact List.mem_cons_of_mem _ (ih m h)

/-- On a well-formed cache, exponent 0 makes `transit_pow` diverge: no amount
of fuel returns. -/
theorem transitPow_zero_none (g : ChordGenerator) :
    ∀ fuel cache, cacheWF g cache → transitPow fuel g cache 0 = none := by
  intro fuel
  induction fuel with
  | zero => intro cache _; rfl
  | succ f ih =>
    intro cache hWF
    simp only [transitPow]
    rw [if_neg (by omega : ¬(0 : ℕ) = 1)]
    cases hc : cacheGet 0 cache with
    | some m => exact absurd (hWF 0 m (cacheGet_mem 0 cache m hc)).1 (by omega)
    | none =>
      have : (0 : ℕ) / 2 = 0 := rfl
      rw [this, ih cache hWF]

/-- Soundness of `transit_pow`: whenever it terminates on a well-formed cache,
it returns the naive power, the cache stays well-formed, old entries persist,
and for exponents above 1 the exponent is now cached. -/
theorem transitPow_sound (g : ChordGenerator) (hs : g.Supported) :
    ∀ fuel n cache M c', cacheWF g cache → transitPow fuel g cache n = some (M, c') →
      M = naiveTransitPow g n ∧ cacheWF g c' ∧ (∀ e ∈ cache, e ∈ c') ∧
      (1 < n → (n, naiveTransitPow g n) ∈ c') := by
  intro fuel
  induction fuel with
  | zero => intro n cache M c' _ h; exact absurd h (by simp [transitPow])
  | succ f ih =>
    intro n cache M c' hWF h
    by_cases h1 : n = 1
    · subst h1
      simp only [transitPow, if_pos rfl, Option.some.injEq, Prod.mk.injEq] at h
      obtain ⟨rfl, rfl⟩ := h.symm
      exact ⟨(naiveTransitPow_one g hs).symm, hWF, fun e he => he, by omega⟩
    · by_cases h0 : n = 0
      · subst h0
        rw [transitPow_zero_none g (f + 1) cache hWF] at h
        exact absurd h (by simp)
      · simp only [transitPow, if_neg h1] at h
        cases hc : cacheGet n cache with
        | some m =>
          rw [hc] at h
          simp only [Option.some.injEq, Prod.mk.injEq] at h
          obtain ⟨rfl, rfl⟩ := h.symm
          have hm := hWF n m (cacheGet_mem n cache m hc)
          exact ⟨hm.2, hWF, fun e he => he,
            fun _ => hm.2 ▸ cacheGet_mem n cache m hc⟩
        | none =>
          rw [hc] at h
          cases hrec : transitPow f g cache (n / 2) with
          | none => rw [hrec] at h; exact absurd h (by simp)
          | some pc =>
            obtain ⟨p, c1⟩ := pc
            rw [hrec] at h
            obtain ⟨hp, hWF1, hext1, _⟩ := ih (n / 2) cache p c1 hWF hrec
            simp only [Option.some.injEq, Prod.mk.injEq] at h
            obtain ⟨rfl, rfl⟩ := h.symm
            have hansEq : (if n % 2 = 1 then matMul g.size (matMul g.size p p) g.transit
                else matMul g.size p p) = naiveTransitPow g n := by
              subst hp
              by_cases hodd : n % 2 = 1
              · rw [if_pos hodd, ← naiveTransitPow_add g hs (n / 2) (n / 2),
                  ← naiveTransitPow_succ g (n / 2 + n / 2)]
                have hn : n / 2 + n / 2 + 1 = n := by omega
                rw [hn]
              · rw [if_neg hodd, ← naiveTransitPow_add g hs (n / 2) (n / 2)]
                have hn : n / 2 + n / 2 = n := by omega
                rw [hn]
            refine ⟨hansEq, ?_, ?_, ?_⟩
            · intro k m hkm
              rcases List.mem_cons.mp hkm with he | he
              · obtain ⟨rfl, rfl⟩ := Prod.mk.injEq .. ▸ he
                exact ⟨by omega, hansEq.symm ▸ rfl⟩
              · exact hWF1 k m he
            · intro e he
              exact List.mem_cons_of_mem _ (hext1 e he)
            · intro _
              rw [← hansEq]
              exact List.mem_cons_self _ _

/-- Completeness of `transit_pow`: enough fuel makes any positive exponent
terminate. -/
theorem transitPow_some (g : ChordGenerator) :
    ∀ fuel n cache, cacheWF g cache → 1 ≤ n → n ≤ fuel →
      ∃ p, transitPow fuel g cache n = some p := by
  intro fuel
  induction fuel with
  | zero => intro n cache _ h1 h2; omega
  | succ f ih =>
    intro n cache hWF h1 h2
    by_cases hn1 : n = 1
    · subst hn1
      exact ⟨(g.transit, cache), by simp [transitPow]⟩
    · simp only [transitPow, if_neg hn1]
      cases hc : cacheGet n cache with
      | some m => exact ⟨(m, cache), rfl⟩
      | none =>
        obtain ⟨⟨p, c1⟩, hrec⟩ := ih (n / 2) cache hWF (by omega) (by omega)
        rw [hrec]
        exact ⟨_, rfl⟩

/-- Combined `transit_pow` contract used by the claims: with enough fuel the
result is the naive power, the cache stays well-formed and only grows. -/
theorem transitPow_full (g : ChordGenerator) (hs : g.Supported) (fuel n : ℕ) (cache : Cache)
    (hWF : cacheWF g cache) (h1 : 1 ≤ n) (hf : n ≤ fuel) :
    ∃ c', transitPow fuel g cache n = some (naiveTransitPow g n, c') ∧ cacheWF g c' ∧
      ∀ e ∈ cache, e ∈ c' := by
  obtain ⟨⟨M, c'⟩, h⟩ := transitPow_some g fuel n cache hWF h1 hf
  obtain ⟨hM, hWF2, hext, _⟩ := transitPow_sound g hs fuel n cache M c' hWF h
  exact ⟨c', hM ▸ h, hWF2, hext⟩

/-- The empty cache is well-formed. -/
theorem cacheWF_nil (g : ChordGenerator) : cacheWF g [] := by
  intro k m h
  exact absurd h (List.not_mem_nil _)

/-- Characterization of a terminating `probability_on` call on a well-formed
cache: the cache stays well-formed and only grows, and the result is
determined by the inputs: the range error under a violated index guard, the
unknown-chord error when a boundary chord is missing, and otherwise the
conditional-distribution formula built from naive matrix powers. -/
theorem probOn_sound (g : ChordGenerator) (hs : g.Supported) (fuel : ℕ) (cache : Cache)
    (L R : Chord) (ri gi : ℕ) (res : Except String (ℕ → ℚ)) (c' : Cache)
    (hWF : cacheWF g cache) (h : probabilityOn fuel g cache L R ri gi = some (res, c')) :
    cacheWF g c' ∧ (∀ e ∈ cache, e ∈ c') ∧
    (ri ≤ gi → res = Except.error rangeErr) ∧
    (¬ ri ≤ gi → (g.map_backward L = none ∨ g.map_backward R = none) →
      res = Except.error unknownErr) ∧
    (∀ l r, ¬ ri ≤ gi → g.map_backward L = some l → g.map_backward R = some r →
      res = Except.ok (fun x => naiveTransitPow g gi x l * naiveTransitPow g (ri - gi) r x /
        naiveTransitPow g ri r l)) := by
  unfold probabilityOn at h
  by_cases hle : ri ≤ gi
  · rw [if_pos hle] at h
    simp only [Option.some.injEq, Prod.mk.injEq] at h
    exact ⟨h.2 ▸ hWF, h.2 ▸ fun e he => he, fun _ => h.1.symm,
      fun hc _ => absurd hle hc, fun l r hc _ _ => absurd hle hc⟩
  · rw [if_neg hle] at h
    cases hL : g.map_backward L with
    | none =>
      rw [hL] at h
      cases hR : g.map_backward R with
      | none =>
        rw [hR] at h
        dsimp only at h
        simp only [Option.some.injEq, Prod.mk.injEq] at h
        exact ⟨h.2 ▸ hWF, h.2 ▸ fun e he => he, fun hc => absurd hc hle,
          fun _ _ => h.1.symm, fun l r _ hsl _ => absurd hsl (by simp)⟩
      | some r0 =>
        rw [hR] at h
        dsimp only at h
        simp only [Option.some.injEq, Prod.mk.injEq] at h
        exact ⟨h.2 ▸ hWF, h.2 ▸ fun e he => he, fun hc => absurd hc hle,
          fun _ _ => h.1.symm, fun l r _ hsl _ => absurd hsl (by simp)⟩
    | some l0 =>
      rw [hL] at h
      cases hR : g.map_backward R with
      | none =>
        rw [hR] at h
        dsimp only at h
        simp only [Option.some.injEq, Prod.mk.injEq] at h
        exact ⟨h.2 ▸ hWF, h.2 ▸ fun e he => he, fun hc => absurd hc hle,
          fun _ _ => h.1.symm, fun l r _ _ hsr => absurd hsr (by simp)⟩
      | some r0 =>
        rw [hR] at h
        dsimp only at h
        cases h1 : transitPow fuel g cache (ri - gi) with
        | none => rw [h1] at h; exact absurd h (by simp)
        | some p1 =>
        obtain ⟨p_r_g, c1⟩ := p1
        rw [h1] at h
        dsimp only at h
        cases h2 : transitPow fuel g c1 gi with
        | none => rw [h2] at h; exact absurd h (by simp)
        | some p2 =>
        obtain ⟨p_g, c2⟩ := p2
        rw [h2] at h
        dsimp only at h
        cases h3 : transitPow fuel g c2 ri with
        | none => rw [h3] at h; exact absurd h (by simp)
        | some p3 =>
        obtain ⟨p_r, c3⟩ := p3
        rw [h3] at h
        dsimp only at h
        simp only [Option.some.injEq, Prod.mk.injEq] at h
        obtain ⟨hres, hc3⟩ := h
        obtain ⟨e1, w1, x1, _⟩ := transitPow_sound g hs fuel (ri - gi) cache p_r_g c1 hWF h1
        obtain ⟨e2, w2, x2, _⟩ := transitPow_sound g hs fuel gi c1 p_g c2 w1 h2
        obtain ⟨e3, w3, x3, _⟩ := transitPow_sound g hs fuel ri c2 p_r c3 w2 h3
        subst hc3
        refine ⟨w3, fun e he => x3 e (x2 e (x1 e he)), fun hc => absurd hc hle,
          fun _ hor => ?_, fun l r _ hsl hsr => ?_⟩
        · rcases hor with hd | hd
          · exact absurd hd (by simp)
          · exact absurd hd (by simp)
        · obtain rfl := Option.some.inj hsl
          obtain rfl := Option.some.inj hsr
          rw [← hres, e1, e2, e3]

/-- Two terminating `probability_on` calls on the same model and indices agree
on the returned result, whatever the two well-formed caches and fuels were. -/
theorem probOn_det (g : ChordGenerator) (hs : g.Supported) (fa fb : ℕ) (ca cb : Cache)
    (L R : Chord) (ri gi : ℕ) (ra rb : Except String (ℕ → ℚ)) (ca' cb' : Cache)
    (hwa : cacheWF g ca) (hwb : cacheWF g cb)
    (ha : probabilityOn fa g ca L R ri gi = some (ra, ca'))
    (hb : probabilityOn fb g cb L R ri gi = some (rb, cb')) : ra = rb := by
  obtain ⟨_, _, hae, hau, hak⟩ := probOn_sound g hs fa ca L R ri gi ra ca' hwa ha
  obtain ⟨_, _, hbe, hbu, hbk⟩ := probOn_sound g hs fb cb L R ri gi rb cb' hwb hb
  by_cases hle : ri ≤ gi
  · rw [hae hle, hbe hle]
  · cases hL : g.map_backward L with
    | none => rw [hau hle (Or.inl hL), hbu hle (Or.inl hL)]
    | some l0 =>
      cases hR : g.map_backward R with
      | none => rw [hau hle (Or.inr hR), hbu hle (Or.inr hR)]
      | some r0 => rw [hak l0 r0 hle hL hR, hbk l0 r0 hle hL hR]

/-- Completeness of `probability_on`: valid indices, known boundary chords, a
well-formed cache and enough fuel produce the Ok formula. -/
theorem probOn_ok (g : ChordGenerator) (hs : g.Supported) (fuel : ℕ) (cache : Cache)
    (L R : Chord) (ri gi l r : ℕ) (hWF : cacheWF g cache)
    (hl : g.map_backward L = some l) (hr : g.map_backward R = some r)
    (h0 : 0 < gi) (h1 : gi < ri) (hf : ri ≤ fuel) :
    ∃ c', probabilityOn fuel g cache L R ri gi =
      some (Except.ok (fun x => naiveTransitPow g gi x l * naiveTransitPow g (ri - gi) r x /
        naiveTransitPow g ri r l), c') ∧ cacheWF g c' ∧ ∀ e ∈ cache, e ∈ c' := by
  have hle : ¬ ri ≤ gi := by omega
  obtain ⟨c1, e1, w1, x1⟩ := transitPow_full g hs fuel (ri - gi) cache hWF (by omega) (by omega)
  obtain ⟨c2, e2, w2, x2⟩ := transitPow_full g hs fuel gi c1 w1 (by omega) (by omega)
  obtain ⟨c3, e3, w3, x3⟩ := transitPow_full g hs fuel ri c2 w2 (by omega) (by omega)
  refine ⟨c3, ?_, w3, fun e he => x3 e (x2 e (x1 e he))⟩
  unfold probabilityOn
  rw [if_neg hle, hl, hr]
  dsimp only
  rw [e1]
  dsimp only
  rw [e2]
  dsimp only
  rw [e3]

/-- Every terminating `generate_fill` call on a well-formed cache keeps the
cache well-formed and only ever adds entries. -/
theorem fill_wf (g : ChordGenerator) (hs : g.Supported) :
    ∀ fuel span cache L R r res c', cacheWF g cache →
      generateFill g fuel cache span L R r = some (res, c') →
      cacheWF g c' ∧ ∀ e ∈ cache, e ∈ c' := by
  intro fuel
  induction fuel with
  | zero => intro span cache L R r res c' _ h; exact absurd h (by simp [generateFill])
  | succ f ih =>
    intro span cache L R r res c' hWF h
    by_cases hsp : span = 0
    · subst hsp
      have hred : generateFill g (f + 1) cache 0 L R r = some (Except.ok ([], r), cache) := rfl
      rw [hred] at h
      simp only [Option.some.injEq, Prod.mk.injEq] at h
      exact ⟨h.2 ▸ hWF, h.2 ▸ fun e he => he⟩
    · simp only [generateFill, if_neg hsp] at h
      cases hp : probabilityOn f g cache L R (span + 1) (span / 2 + 1) with
      | none => rw [hp] at h; exact absurd h (by simp)
      | some p1 =>
      obtain ⟨res1, c1⟩ := p1
      rw [hp] at h
      obtain ⟨w1, x1, _⟩ := probOn_sound g hs f cache L R (span + 1) (span / 2 + 1) res1 c1 hWF hp
      cases res1 with
      | error e =>
        dsimp only at h
        simp only [Option.some.injEq, Prod.mk.injEq] at h
        exact ⟨h.2 ▸ w1, h.2 ▸ x1⟩
      | ok v =>
        dsimp only at h
        cases hsam : sampleIndexE ((List.range g.size).map v) r with
        | error e =>
          rw [hsam] at h
          dsimp only at h
          simp only [Option.some.injEq, Prod.mk.injEq] at h
          exact ⟨h.2 ▸ w1, h.2 ▸ x1⟩
        | ok gr =>
        obtain ⟨gen, r1⟩ := gr
        rw [hsam] at h
        dsimp only at h
        cases hgc : g.map_forward[gen]? with
        | none => rw [hgc] at h; exact absurd h (by simp)
        | some c =>
        rw [hgc] at h
        dsimp only at h
        cases hfl : generateFill g f c1 (span / 2) L c r1 with
        | none => rw [hfl] at h; exact absurd h (by simp)
        | some q1 =>
        obtain ⟨resL, c2⟩ := q1
        rw [hfl] at h
        obtain ⟨w2, x2⟩ := ih (span / 2) c1 L c r1 resL c2 w1 hfl
        cases resL with
        | error e =>
          dsimp only at h
          simp only [Option.some.injEq, Prod.mk.injEq] at h
          exact ⟨h.2 ▸ w2, h.2 ▸ fun e2 he2 => x2 e2 (x1 e2 he2)⟩
        | ok pr =>
        obtain ⟨ls, r2⟩ := pr
        dsimp only at h
        cases hfr : generateFill g f c2 (span - span / 2 - 1) c R r2 with
        | none => rw [hfr] at h; exact absurd h (by simp)
        | some q2 =>
        obtain ⟨resR, c3⟩ := q2
        rw [hfr] at h
        obtain ⟨w3, x3⟩ := ih (span - span / 2 - 1) c2 c R r2 resR c3 w2 hfr
        cases resR with
        | error e =>
          dsimp only at h
          simp only [Option.some.injEq, Prod.mk.injEq] at h
          exact ⟨h.2 ▸ w3, h.2 ▸ fun e2 he2 => x3 e2 (x2 e2 (x1 e2 he2))⟩
        | ok qr =>
          obtain ⟨rs, r3⟩ := qr
          dsimp only at h
          simp only [Option.some.injEq, Prod.mk.injEq] at h
          exact ⟨h.2 ▸ w3, h.2 ▸ fun e2 he2 => x3 e2 (x2 e2 (x1 e2 he2))⟩

/-- On success, `generate_fill` returns exactly `span` chords. -/
theorem fill_len (g : ChordGenerator) :
    ∀ fuel span cache L R r out r' c',
      generateFill g fuel cache span L R r = some (Except.ok (out, r'), c') →
      out.length = span := by
  intro fuel
  induction fuel with
  | zero => intro span cache L R r out r' c' h; exact absurd h (by simp [generateFill])
  | succ f ih =>
    intro span cache L R r out r' c' h
    by_cases hsp : span = 0
    · subst hsp
      have hred : generateFill g (f + 1) cache 0 L R r = some (Except.ok ([], r), cache) := rfl
      rw [hred] at h
      simp only [Option.some.injEq, Prod.mk.injEq, Except.ok.injEq] at h
      obtain ⟨⟨h1, _⟩, _⟩ := h
      rw [← h1]
      rfl
    · simp only [generateFill, if_neg hsp] at h
      cases hp : probabilityOn f g cache L R (span + 1) (span / 2 + 1) with
      | none => rw [hp] at h; exact absurd h (by simp)
      | some p1 =>
      obtain ⟨res1, c1⟩ := p1
      rw [hp] at h
      cases res1 with
      | error e => dsimp only at h; simp at h
      | ok v =>
        dsimp only at h
        cases hsam : sampleIndexE ((List.range g.size).map v) r with
        | error e => rw [hsam] at h; dsimp only at h; simp at h
        | ok gr =>
        obtain ⟨gen, r1⟩ := gr
        rw [hsam] at h
        dsimp only at h
        cases hgc : g.map_forward[gen]? with
        | none => rw [hgc] at h; exact absurd h (by simp)
        | some c =>
        rw [hgc] at h
        dsimp only at h
        cases hfl : generateFill g f c1 (span / 2) L c r1 with
        | none => rw [hfl] at h; exact absurd h (by simp)
        | some q1 =>
        obtain ⟨resL, c2⟩ := q1
        rw [hfl] at h
        cases resL with
        | error e => dsimp only at h; simp at h
        | ok pr =>
        obtain ⟨ls, r2⟩ := pr
        dsimp only at h
        cases hfr : generateFill g f c2 (span - span / 2 - 1) c R r2 with
        | none => rw [hfr] at h; exact absurd h (by simp)
        | some q2 =>
        obtain ⟨resR, c3⟩ := q2
        rw [hfr] at h
        cases resR with
        | error e => dsimp only at h; simp at h
        | ok qr =>
          obtain ⟨rs, r3⟩ := qr
          dsimp only at h
          simp only [Option.some.injEq, Prod.mk.injEq, Except.ok.injEq] at h
          obtain ⟨⟨h1, _⟩, _⟩ := h
          have hl1 : ls.length = span / 2 := ih (span / 2) c1 L c r1 ls r2 c2 hfl
          have hl2 : rs.length = span - span / 2 - 1 :=
            ih (span - span / 2 - 1) c2 c R r2 rs r3 c3 hfr
          rw [← h1]
          simp only [List.length_append, List.length_cons, hl1, hl2]
          omega

/-- Determinism of the infill sampler: two terminating `generate_fill` runs on
the same model, boundaries, span and random source return the same result,
whatever the two well-formed caches and fuel budgets were. -/
theorem fill_det (g : ChordGenerator) (hs : g.Supported) :
    ∀ span fa fb ca cb L R r ra rb ca' cb', cacheWF g ca → cacheWF g cb →
      generateFill g fa ca span L R r = some (ra, ca') →
      generateFill g fb cb span L R r = some (rb, cb') → ra = rb := by
  intro span
  induction span using Nat.strong_induction_on with
  | _ span ih =>
    intro fa fb ca cb L R r ra rb ca' cb' hwa hwb ha hb
    cases fa with
    | zero => exact absurd ha (by simp [generateFill])
    | succ fa =>
    cases fb with
    | zero => exact absurd hb (by simp [generateFill])
    | succ fb =>
    by_cases hsp : span = 0
    · subst hsp
      have hra : generateFill g (fa + 1) ca 0 L R r = some (Except.ok ([], r), ca) := rfl
      have hrb : generateFill g (fb + 1) cb 0 L R r = some (Except.ok ([], r), cb) := rfl
      rw [hra] at ha
      rw [hrb] at hb
      simp only [Option.some.injEq, Prod.mk.injEq] at ha hb
      rw [← ha.1, ← hb.1]
    · simp only [generateFill, if_neg hsp] at ha hb
      cases hpa : probabilityOn fa g ca L R (span + 1) (span / 2 + 1) with
      | none => rw [hpa] at ha; exact absurd ha (by simp)
      | some pa =>
      obtain ⟨resa, c1a⟩ := pa
      cases hpb : probabilityOn fb g cb L R (span + 1) (span / 2 + 1) with
      | none => rw [hpb] at hb; exact absurd hb (by simp)
      | some pb =>
      obtain ⟨resb, c1b⟩ := pb
      rw [hpa] at ha
      rw [hpb] at hb
      obtain ⟨hwa1, _⟩ :=
        probOn_sound g hs fa ca L R (span + 1) (span / 2 + 1) resa c1a hwa hpa
      obtain ⟨hwb1, _⟩ :=
        probOn_sound g hs fb cb L R (span + 1) (span / 2 + 1) resb c1b hwb hpb
      have hres : resa = resb :=
        probOn_det g hs fa fb ca cb L R (span + 1) (span / 2 + 1) resa resb c1a c1b hwa hwb
          hpa hpb
      subst hres
      cases resa with
      | error e =>
        dsimp only at ha hb
        simp only [Option.some.injEq, Prod.mk.injEq] at ha hb
        rw [← ha.1, ← hb.1]
      | ok v =>
        dsimp only at ha hb
        cases hsam : sampleIndexE ((List.range g.size).map v) r with
        | error e =>
          rw [hsam] at ha hb
          dsimp only at ha hb
          simp only [Option.some.injEq, Prod.mk.injEq] at ha hb
          rw [← ha.1, ← hb.1]
        | ok gr =>
        obtain ⟨gen, r1⟩ := gr
        rw [hsam] at ha hb
        dsimp only at ha hb
        cases hgc : g.map_forward[gen]? with
        | none => rw [hgc] at ha; exact absurd ha (by simp)
        | some c =>
        rw [hgc] at ha hb
        dsimp only at ha hb
        cases hfla : generateFill g fa c1a (span / 2) L c r1 with
        | none => rw [hfla] at ha; exact absurd ha (by simp)
        | some qa =>
        obtain ⟨resLa, c2a⟩ := qa
        cases hflb : generateFill g fb c1b (span / 2) L c r1 with
        | none => rw [hflb] at hb; exact absurd hb (by simp)
        | some qb =>
        obtain ⟨resLb, c2b⟩ := qb
        rw [hfla] at ha
        rw [hflb] at hb
        obtain ⟨hwa2, _⟩ := fill_wf g hs fa (span / 2) c1a L c r1 resLa c2a hwa1 hfla
        obtain ⟨hwb2, _⟩ := fill_wf g hs fb (span / 2) c1b L c r1 resLb c2b hwb1 hflb
        have hresL : resLa = resLb :=
          ih (span / 2) (by omega) fa fb c1a c1b L c r1 resLa resLb c2a c2b hwa1 hwb1
            hfla hflb
        subst hresL
        cases resLa with
        | error e =>
          dsimp only at ha hb
          simp only [Option.some.injEq, Prod.mk.injEq] at ha hb
          rw [← ha.1, ← hb.1]
        | ok pr =>
        obtain ⟨ls, r2⟩ := pr
        dsimp only at ha hb
        cases hfra : generateFill g fa c2a (span - span / 2 - 1) c R r2 with
        | none => rw [hfra] at ha; exact absurd ha (by simp)
        | some ta =>
        obtain ⟨resRa, c3a⟩ := ta
        cases hfrb : generateFill g fb c2b (span - span / 2 - 1) c R r2 with
        | none => rw [hfrb] at hb; exact absurd hb (by simp)
        | some tb =>
        obtain ⟨resRb, c3b⟩ := tb
        rw [hfra] at ha
        rw [hfrb] at hb
        have hresR : resRa = resRb :=
          ih (span - span / 2 - 1) (by omega) fa fb c2a c2b c R r2 resRa resRb c3a c3b
            hwa2 hwb2 hfra hfrb
        subst hresR
        cases resRa with
        | error e =>
          dsimp only at ha hb
          simp only [Option.some.injEq, Prod.mk.injEq] at ha hb
          rw [← ha.1, ← hb.1]
        | ok qr =>
          obtain ⟨rs, r3⟩ := qr
          dsimp only at ha hb
          simp only [Option.some.injEq, Prod.mk.injEq] at ha hb
          rw [← ha.1, ← hb.1]

/-- Chords already accumulated stay in the built alphabet. -/
theorem mem_buildForward_acc (c : Chord) :
    ∀ (l acc : List Chord), c ∈ acc → c ∈ buildForward acc l := by
  intro l
  induction l with
  | nil => intro acc h; simpa [buildForward] using h
  | cons d l ih =>
    intro acc h
    simp only [buildForward]
    by_cases hd : d ∈ acc
    · rw [if_pos hd]; exact ih acc h
    · rw [if_neg hd]; exact ih (acc ++ [d]) (List.mem_append_left _ h)

/-- Every chord of the training sequence appears in the built alphabet. -/
theorem mem_buildForward (c : Chord) :
    ∀ (l acc : List Chord), c ∈ l → c ∈ buildForward acc l := by
  intro l
  induction l with
  | nil => intro acc h; exact absurd h (List.not_mem_nil c)
  | cons d l ih =>
    intro acc h
    simp only [buildForward]
    rcases List.mem_cons.mp h with rfl | hm
    · by_cases hd : c ∈ acc
      · rw [if_pos hd]; exact mem_buildForward_acc c l acc hd
      · rw [if_neg hd]
        exact mem_buildForward_acc c l (acc ++ [c]) (List.mem_append_right _ (by simp))
    · by_cases hd : d ∈ acc
      · rw [if_pos hd]; exact ih acc hm
      · rw [if_neg hd]; exact ih (acc ++ [d]) hm

/-- The built alphabet only contains the accumulator and training chords. -/
theorem buildForward_sub (c : Chord) :
    ∀ (l acc : List Chord), c ∈ buildForward acc l → c ∈ acc ∨ c ∈ l := by
  intro l
  induction l with
  | nil => intro acc h; left; simpa [buildForward] using h
  | cons d l ih =>
    intro acc h
    simp only [buildForward] at h
    by_cases hd : d ∈ acc
    · rw [if_pos hd] at h
      rcases ih acc h with h2 | h2
      · left; exact h2
      · right; exact List.mem_cons_of_mem _ h2
    · rw [if_neg hd] at h
      rcases ih (acc ++ [d]) h with h2 | h2
      · rcases List.mem_append.mp h2 with h3 | h3
        · left; exact h3
        · right
          rw [List.mem_singleton.mp h3]
          exact List.mem_cons_self _ _
      · right; exact List.mem_cons_of_mem _ h2

/-- The built alphabet has no duplicates. -/
theorem buildForward_nodup :
    ∀ (l acc : List Chord), acc.Nodup → (buildForward acc l).Nodup := by
  intro l
  induction l with
  | nil => intro acc h; simpa [buildForward] using h
  | cons d l ih =>
    intro acc h
    simp only [buildForward]
    by_cases hd : d ∈ acc
    · rw [if_pos hd]; exact ih acc h
    · rw [if_neg hd]
      refine ih (acc ++ [d]) ?_
      simp [List.nodup_append, h, hd]

/-- The first-occurrence index of a member is below the length. -/
theorem idxOf_lt_length (c : Chord) : ∀ l : List Chord, c ∈ l → idxOf c l < l.length := by
  intro l
  induction l with
  | nil => intro h; exact absurd h (List.not_mem_nil c)
  | cons d l ih =>
    intro h
    simp only [idxOf]
    by_cases hd : d = c
    · rw [if_pos hd]; simp
    · rw [if_neg hd]
      have hm : c ∈ l := by
        rcases List.mem_cons.mp h with h2 | h2
        · exact absurd h2.symm hd
        · exact h2
      have := ih hm
      simp only [List.length_cons]
      omega

/-- On a duplicate-free list, the first-occurrence index of the j-th element
is j. -/
theorem idxOf_get : ∀ (l : List Chord), l.Nodup → ∀ (j : ℕ) (h : j < l.length),
    idxOf (l.get ⟨j, h⟩) l = j := by
  intro l
  induction l with
  | nil => intro _ j h; exact absurd h (by simp)
  | cons d l ih =>
    intro hnd j h
    cases j with
    | zero => simp [idxOf, List.get]
    | succ j =>
      have hjl : j < l.length := by
        simp only [List.length_cons] at h
        omega
      have hget : (d :: l).get ⟨j + 1, h⟩ = l.get ⟨j, hjl⟩ := rfl
      rw [hget]
      simp only [idxOf]
      have hd : d ≠ l.get ⟨j, hjl⟩ := by
        intro hEq
        have hmem : l.get ⟨j, hjl⟩ ∈ l := l.get_mem _ _
        rw [← hEq] at hmem
        exact (List.nodup_cons.mp hnd).1 hmem
      rw [if_neg hd, ih (List.nodup_cons.mp hnd).2 j hjl]

/-- First components of zipped pairs come from the first list. -/
theorem mem_zip_left (p : Chord × Chord) :
    ∀ (l1 l2 : List Chord), p ∈ l1.zip l2 → p.1 ∈ l1 := by
  intro l1
  induction l1 with
  | nil => intro l2 h; simp [List.zip] at h
  | cons a l1 ih =>
    intro l2 h
    cases l2 with
    | nil => simp [List.zip] at h
    | cons b l2 =>
      rw [List.zip_cons_cons] at h
      rcases List.mem_cons.mp h with h2 | h2
      · subst h2; exact List.mem_cons_self _ _
      · exact List.mem_cons_of_mem _ (ih l2 h2)

/-- Every element of the training sequence is the predecessor component of a
zipped adjacent pair, or the last element. -/
theorem zip_snd_cover (c : Chord) : ∀ (rest : List Chord) (c0 : Chord), c ∈ c0 :: rest →
    (∃ e ∈ rest.zip (c0 :: rest), e.2 = c) ∨ c = lastOf c0 rest := by
  intro rest
  induction rest with
  | nil =>
    intro c0 hc
    right
    rcases List.mem_cons.mp hc with h | h
    · simpa [lastOf] using h
    · exact absurd h (List.not_mem_nil c)
  | cons b l ih =>
    intro c0 hc
    rcases List.mem_cons.mp hc with h0 | h1
    · left
      refine ⟨(b, c0), ?_, h0.symm⟩
      rw [List.zip_cons_cons]
      exact List.mem_cons_self _ _
    · rcases ih b h1 with ⟨e, he, h2⟩ | hl
      · left
        refine ⟨e, ?_, h2⟩
        rw [List.zip_cons_cons]
        exact List.mem_cons_of_mem _ he
      · right
        simpa [lastOf] using hl

/-- Every element of the training sequence is the predecessor component of
some transition event. -/
theorem events_snd_cover (c0 : Chord) (rest : List Chord) (c : Chord) (hc : c ∈ c0 :: rest) :
    ∃ e ∈ eventsOf c0 rest, e.2 = c := by
  rcases zip_snd_cover c rest c0 hc with ⟨e, he, h2⟩ | hl
  · exact ⟨e, List.mem_append_left _ he, h2⟩
  · exact ⟨(c0, lastOf c0 rest), List.mem_append_right _ (by simp), hl.symm⟩

/-- The successor component of every transition event is a training chord. -/
theorem events_fst_mem (c0 : Chord) (rest : List Chord) (e : Chord × Chord)
    (he : e ∈ eventsOf c0 rest) : e.1 ∈ c0 :: rest := by
  rcases List.mem_append.mp he with h | h
  · exact List.mem_cons_of_mem _ (mem_zip_left e rest (c0 :: rest) h)
  · rw [List.mem_singleton.mp h]
    exact List.mem_cons_self _ _

/-- Column sums after one bump: the bumped column grows by one, provided the
bumped row is inside the square. -/
theorem colSum_bump (n : ℕ) (m : Mat) (i j0 j : ℕ) (hi : i < n) :
    colSum n (bump m i j0) j = colSum n m j + if j = j0 then 1 else 0 := by
  simp only [colSum, bump]
  by_cases hj : j = j0
  · subst hj
    rw [if_pos rfl]
    have hterm : ∀ a ∈ Finset.range n,
        (if a = i ∧ j = j then m a j + 1 else m a j) = m a j + if a = i then (1 : ℚ) else 0 := by
      intro a _
      by_cases hai : a = i
      · simp [hai]
      · simp [hai]
    rw [Finset.sum_congr rfl hterm, Finset.sum_add_distrib,
      Finset.sum_ite_eq' (Finset.range n) i (fun _ => (1 : ℚ)),
      if_pos (Finset.mem_range.mpr hi)]
  · rw [if_neg hj]
    have hterm : ∀ a ∈ Finset.range n,
        (if a = i ∧ j = j0 then m a j + 1 else m a j) = m a j := by
      intro a _
      rw [if_neg]
      rintro ⟨_, h2⟩
      exact hj h2
    rw [Finset.sum_congr rfl hterm, add_zero]

/-- Column sums through the event fold: the column sum counts the events whose
predecessor index is the column, when every successor index is in range. -/
theorem colSum_foldl (n : ℕ) (fwd : List Chord) (j : ℕ) :
    ∀ (evs : List (Chord × Chord)) (m0 : Mat), (∀ e ∈ evs, idxOf e.1 fwd < n) →
      colSum n (evs.foldl (fun m e => bump m (idxOf e.1 fwd) (idxOf e.2 fwd)) m0) j
        = colSum n m0 j + (evs.map (fun e => if j = idxOf e.2 fwd then (1 : ℚ) else 0)).sum := by
  intro evs
  induction evs with
  | nil => intro m0 _; simp
  | cons e evs ih =>
    intro m0 hrows
    simp only [List.foldl_cons, List.map_cons, List.sum_cons]
    rw [ih (bump m0 (idxOf e.1 fwd) (idxOf e.2 fwd))
      (fun e2 he2 => hrows e2 (List.mem_cons_of_mem _ he2)),
      colSum_bump n m0 (idxOf e.1 fwd) (idxOf e.2 fwd) j (hrows e (List.mem_cons_self _ _))]
    ring

/-- A sum of zero-one indicators with at least one hit is at least one. -/
theorem indicator_sum_ge_one (j : ℕ) (fwd : List Chord) :
    ∀ (evs : List (Chord × Chord)) (e0 : Chord × Chord), e0 ∈ evs → j = idxOf e0.2 fwd →
      1 ≤ (evs.map (fun e => if j = idxOf e.2 fwd then (1 : ℚ) else 0)).sum := by
  intro evs
  induction evs with
  | nil => intro e0 h _; exact absurd h (List.not_mem_nil e0)
  | cons e evs ih =>
    intro e0 h hj
    simp only [List.map_cons, List.sum_cons]
    have hnn : 0 ≤ (evs.map (fun e => if j = idxOf e.2 fwd then (1 : ℚ) else 0)).sum := by
      apply List.sum_nonneg
      intro x hx
      rcases List.mem_map.mp hx with ⟨e2, _, rfl⟩
      split <;> norm_num
    rcases List.mem_cons.mp h with rfl | h2
    · rw [if_pos hj]
      linarith
    · have h1 := ih e0 h2 hj
      have hnn1 : (0 : ℚ) ≤ if j = idxOf e.2 fwd then 1 else 0 := by split <;> norm_num
      linarith

/-- Every column of the co-occurrence matrix of a nonempty training sequence
has sum at least one: every alphabet chord occurs somewhere in the sequence,
and every sequence position is the predecessor of exactly one event. -/
theorem cooccur_colSum_pos (c0 : Chord) (rest : List Chord) (j : ℕ)
    (hj : j < (buildForward [] (c0 :: rest)).length) :
    1 ≤ colSum (buildForward [] (c0 :: rest)).length
      (cooccurOf (buildForward [] (c0 :: rest)) c0 rest) j := by
  have hrows : ∀ e ∈ eventsOf c0 rest,
      idxOf e.1 (buildForward [] (c0 :: rest)) < (buildForward [] (c0 :: rest)).length := by
    intro e he
    exact idxOf_lt_length e.1 _
      (mem_buildForward e.1 (c0 :: rest) [] (events_fst_mem c0 rest e he))
  unfold cooccurOf
  rw [colSum_foldl (buildForward [] (c0 :: rest)).length (buildForward [] (c0 :: rest)) j
    (eventsOf c0 rest) (fun _ _ => 0) hrows]
  have hz : colSum (buildForward [] (c0 :: rest)).length (fun _ _ => (0 : ℚ)) j = 0 := by
    simp [colSum]
  rw [hz, zero_add]
  have hcseq : (buildForward [] (c0 :: rest)).get ⟨j, hj⟩ ∈ c0 :: rest := by
    rcases buildForward_sub ((buildForward [] (c0 :: rest)).get ⟨j, hj⟩) (c0 :: rest) []
        (List.get_mem _ _ _) with h | h
    · exact absurd h (List.not_mem_nil _)
    · exact h
  obtain ⟨e0, he0, hsnd⟩ :=
    events_snd_cover c0 rest ((buildForward [] (c0 :: rest)).get ⟨j, hj⟩) hcseq
  have hidx : idxOf e0.2 (buildForward [] (c0 :: rest)) = j := by
    rw [hsnd]
    exact idxOf_get _ (buildForward_nodup (c0 :: rest) [] List.nodup_nil) j hj
  exact indicator_sum_ge_one j (buildForward [] (c0 :: rest)) (eventsOf c0 rest) e0 he0 hidx.symm

/-- Every column of the transition matrix of a model built from a nonempty
training sequence sums to exactly one. -/
theorem column_sums_one (c0 : Chord) (rest : List Chord) :
    ∀ j < (ChordGenerator.ofSeq c0 rest).map_forward.length,
      colSum (ChordGenerator.ofSeq c0 rest).map_forward.length
        (ChordGenerator.ofSeq c0 rest).transit j = 1 := by
  intro j hj
  have hjn : j < (buildForward [] (c0 :: rest)).length := hj
  have hpos := cooccur_colSum_pos c0 rest j hjn
  have hS0 : colSum (buildForward [] (c0 :: rest)).length
      (cooccurOf (buildForward [] (c0 :: rest)) c0 rest) j ≠ 0 := by
    intro h0
    rw [h0] at hpos
    norm_num at hpos
  have hstep : ∀ i ∈ Finset.range (buildForward [] (c0 :: rest)).length,
      (ChordGenerator.ofSeq c0 rest).transit i j
        = cooccurOf (buildForward [] (c0 :: rest)) c0 rest i j /
          colSum (buildForward [] (c0 :: rest)).length
            (cooccurOf (buildForward [] (c0 :: rest)) c0 rest) j := by
    intro i hi
    show (if i < (buildForward [] (c0 :: rest)).length ∧
        j < (buildForward [] (c0 :: rest)).length then _ else 0) = _
    rw [if_pos ⟨Finset.mem_range.mp hi, hjn⟩]
  show colSum (buildForward [] (c0 :: rest)).length (ChordGenerator.ofSeq c0 rest).transit j = 1
  unfold colSum
  rw [Finset.sum_congr rfl hstep, ← Finset.sum_div]
  exact div_self hS0

/-- C1: counterexample.  For the model trained on [C, G] with L = C, R = G and
span 1, interpolated generation does not succeed: with R at its actual
position span + 1 (right_index = 3) the call fails with an error, and under
the right_index = span + 1 reading (right_index = 2) it returns 0 chords, not
the claimed span = 1. -/
theorem C1_counterexample :
    rangeResultLen (generateRange 10 mCG [] cC cG 3 rng0) = some none
  ∧ rangeResultLen (generateRange 10 mCG [] cC cG 2 rng0) = some (some 0) := by
  constructor
  · with_unfolding_all decide
  · with_unfolding_all decide

/-- C1: amended.  A `generate_range` call that returns Ok yields exactly
`right_index - 2` interior chords (R effectively sits at position
`right_index - 1`, so span chords require `right_index = span + 2`), and
`right_index = 2` (span 0) always succeeds with the empty sequence; success
for positive span is not guaranteed. -/
theorem C1_interpolated_length (fuel : ℕ) (g : ChordGenerator) (cache : Cache)
    (L R : Chord) (ri : ℕ) (rng : Rng) :
    (∀ k, rangeResultLen (generateRange fuel g cache L R ri rng) = some (some k) → k = ri - 2)
  ∧ rangeResultLen (generateRange (fuel + 1) g cache L R 2 rng) = some (some 0) := by
  constructor
  · intro k hk
    cases hgr : generateRange fuel g cache L R ri rng with
    | none => rw [hgr] at hk; exact absurd hk (by simp [rangeResultLen])
    | some p =>
      obtain ⟨res, c'⟩ := p
      rw [hgr] at hk
      cases res with
      | error e => simp [rangeResultLen] at hk
      | ok q =>
        obtain ⟨out, r'⟩ := q
        simp only [rangeResultLen, Option.map_some', Option.some.injEq] at hk
        unfold generateRange at hgr
        by_cases h2 : ri < 2
        · rw [if_pos h2] at hgr
          exact absurd hgr (by simp)
        · rw [if_neg h2] at hgr
          have hlen := fill_len g fuel (ri - 2) cache L R rng out r' c' hgr
          omega
  · have hred : generateRange (fuel + 1) g cache L R 2 rng
        = some (Except.ok ([], rng), cache) := rfl
    rw [hred]
    rfl

/-- C1: witness for the amended theorem at a concrete successful call. -/
theorem C1_witness :
    rangeResultLen (generateRange 10 mCG [] cC cC 3 rng0) = some (some 1) ∧ 1 = 3 - 2 := by
  have hr : rangeResultLen (generateRange 10 mCG [] cC cC 3 rng0) = some (some 1) := by
    with_unfolding_all decide
  exact ⟨hr, (C1_interpolated_length 10 mCG [] cC cC 3 rng0).1 1 hr⟩

/-- C2: with 0 < genIndex < rightIndex, both boundary chords in the alphabet,
a well-formed cache and enough fuel, `probability_on` on a built model returns
Ok with the vector whose entry x is power(genIndex)[x][l] *
power(rightIndex - genIndex)[r][x] / power(rightIndex)[r][l]. -/
theorem C2_conditional_formula (seq : List Chord) (g : ChordGenerator) (cache : Cache)
    (fuel : ℕ) (L R : Chord) (ri gi l r : ℕ)
    (hg : ChordGenerator.new seq = some g) (hWF : cacheWF g cache)
    (hl : g.map_backward L = some l) (hr : g.map_backward R = some r)
    (h0 : 0 < gi) (h1 : gi < ri) (hf : ri ≤ fuel) :
    ∃ c', probabilityOn fuel g cache L R ri gi =
      some (Except.ok (fun x => naiveTransitPow g gi x l * naiveTransitPow g (ri - gi) r x /
        naiveTransitPow g ri r l), c') := by
  obtain ⟨c', h, _, _⟩ :=
    probOn_ok g (new_supported seq g hg) fuel cache L R ri gi l r hWF hl hr h0 h1 hf
  exact ⟨c', h⟩

/-- C2: witness at the [C, G] model with L = R = C, rightIndex 2, genIndex 1. -/
theorem C2_witness :
    ChordGenerator.new [cC, cG] = some mCG ∧ mCG.map_backward cC = some 0 ∧
    cacheWF mCG [] ∧ 0 < 1 ∧ 1 < 2 ∧ 2 ≤ 2 ∧
    ∃ c', probabilityOn 2 mCG [] cC cC 2 1 =
      some (Except.ok (fun x => naiveTransitPow mCG 1 x 0 * naiveTransitPow mCG (2 - 1) 0 x /
        naiveTransitPow mCG 2 0 0), c') :=
  ⟨rfl, by decide, cacheWF_nil mCG, by decide, by decide, by decide,
    C2_conditional_formula [cC, cG] mCG [] 2 cC cC 2 1 0 0 rfl (cacheWF_nil mCG)
      (by decide) (by decide) (by decide) (by decide) (by decide)⟩

/-- C3: for every nonempty training sequence the built transition matrix is
column-stochastic: each of its N columns sums to exactly 1 in exact
arithmetic, including the degenerate case N = 1 (self-loop of probability 1). -/
theorem C3_column_stochastic (seq : List Chord) (g : ChordGenerator)
    (hg : ChordGenerator.new seq = some g) :
    ∀ j < g.map_forward.length, colSum g.map_forward.length g.transit j = 1 := by
  cases seq with
  | nil => exact absurd hg (by simp [ChordGenerator.new])
  | cons c0 rest =>
    obtain rfl : ChordGenerator.ofSeq c0 rest = g := Option.some.inj hg
    exact column_sums_one c0 rest

/-- C3: witness at the single-chord training sequence [C] (N = 1). -/
theorem C3_witness :
    ChordGenerator.new [cC] = some (ChordGenerator.ofSeq cC []) ∧
    0 < (ChordGenerator.ofSeq cC []).map_forward.length ∧
    colSum (ChordGenerator.ofSeq cC []).map_forward.length
      (ChordGenerator.ofSeq cC []).transit 0 = 1 :=
  ⟨rfl, by decide, C3_column_stochastic [cC] (ChordGenerator.ofSeq cC []) rfl 0 (by decide)⟩

/-- C4: on a built model and any well-formed cache, `transit_pow(n)` for
n ≥ 1 (with fuel at least n) returns exactly the naive n-fold product of the
base matrix; `transit_pow(1)` returns the base matrix and the untouched
cache; and for n > 1 the power obeys the odd and even binary-exponentiation
recurrences with integer division. -/
theorem C4_transit_pow_naive (seq : List Chord) (g : ChordGenerator) (cache : Cache)
    (fuel n : ℕ) (hg : ChordGenerator.new seq = some g) (hWF : cacheWF g cache)
    (h1 : 1 ≤ n) (hf : n ≤ fuel) :
    (∃ c', transitPow fuel g cache n = some (naiveTransitPow g n, c'))
  ∧ transitPow fuel g cache 1 = some (g.transit, cache)
  ∧ (1 < n → n % 2 = 1 → naiveTransitPow g n =
      matMul g.size (matMul g.size (naiveTransitPow g (n / 2)) (naiveTransitPow g (n / 2)))
        g.transit)
  ∧ (1 < n → n % 2 = 0 → naiveTransitPow g n =
      matMul g.size (naiveTransitPow g (n / 2)) (naiveTransitPow g (n / 2))) := by
  have hs := new_supported seq g hg
  refine ⟨?_, ?_, ?_, ?_⟩
  · obtain ⟨c', h, _, _⟩ := transitPow_full g hs fuel n cache hWF h1 hf
    exact ⟨c', h⟩
  · cases fuel with
    | zero => omega
    | succ f => rfl
  · intro _ hodd
    rw [← naiveTransitPow_add g hs (n / 2) (n / 2), ← naiveTransitPow_succ g (n / 2 + n / 2)]
    have hn : n / 2 + n / 2 + 1 = n := by omega
    rw [hn]
  · intro _ heven
    rw [← naiveTransitPow_add g hs (n / 2) (n / 2)]
    have hn : n / 2 + n / 2 = n := by omega
    rw [hn]

/-- C4: witness at the [C, G] model, exponent 2, empty cache. -/
theorem C4_witness :
    ChordGenerator.new [cC, cG] = some mCG ∧ cacheWF mCG [] ∧ 1 ≤ 2 ∧ 2 ≤ 3 ∧
    ∃ c', transitPow 3 mCG [] 2 = some (naiveTransitPow mCG 2, c') :=
  ⟨rfl, cacheWF_nil mCG, by decide, by decide,
    (C4_transit_pow_naive [cC, cG] mCG [] 3 2 rfl (cacheWF_nil mCG) (by decide) (by decide)).1⟩

/-- C5: calling `generate` with an initial chord absent from the alphabet does
not return an UnknownChord error: the code panics on the hash-map indexing
`self.map_backward[&init_chord]` (modelled as `none`), shown on the model
trained on [C, G] with the unknown chord Am. -/
theorem C5_generate_unknown_panics :
    mCG.map_backward cAm = none ∧ mCG.generate cAm 1 rng0 = none :=
  ⟨by decide, rfl⟩

/-- C6: `probability_on` returns the InvalidRange error (the "Right index is
not greater" message) with the cache untouched whenever
rightIndex ≤ genIndex; but genIndex = 0 with rightIndex = 1 on the [C, G]
model does not produce InvalidRange: the call diverges inside
`transit_pow(0)`, returning for no fuel bound. -/
theorem C6_invalid_range (fuel : ℕ) (g : ChordGenerator) (cache : Cache) (L R : Chord)
    (ri gi : ℕ) (hle : ri ≤ gi) :
    probabilityOn fuel g cache L R ri gi = some (Except.error rangeErr, cache)
  ∧ ∀ f2, probabilityOn f2 mCG [] cC cG 1 0 = none := by
  constructor
  · unfold probabilityOn
    rw [if_pos hle]
  · intro f2
    cases f2 with
    | zero => rfl
    | succ f =>
      unfold probabilityOn
      rw [if_neg (by omega : ¬(1 : ℕ) ≤ 0)]
      have hL : mCG.map_backward cC = some 0 := by decide
      have hR : mCG.map_backward cG = some 1 := by decide
      rw [hL, hR]
      dsimp only
      have hp1 : transitPow (f + 1) mCG [] (1 - 0) = some (mCG.transit, []) := rfl
      rw [hp1]
      dsimp only
      rw [transitPow_zero_none mCG (f + 1) [] (cacheWF_nil mCG)]

/-- C6: witness for the InvalidRange half at rightIndex 1 ≤ genIndex 2. -/
theorem C6_witness :
    (1 : ℕ) ≤ 2 ∧ probabilityOn 3 mCG [] cC cG 1 2 = some (Except.error rangeErr, []) :=
  ⟨by decide, (C6_invalid_range 3 mCG [] cC cG 1 2 (by decide)).1⟩

/-- C7: building from the empty training sequence does not produce an
InvalidInput error: the constructor panics on the index
`chord_seq[chord_seq.len() - 1]` (modelled as `none`); every nonempty
training sequence builds a model successfully. -/
theorem C7_empty_training :
    ChordGenerator.new [] = none
  ∧ ∀ (c0 : Chord) (rest : List Chord), ∃ g, ChordGenerator.new (c0 :: rest) = some g :=
  ⟨rfl, fun c0 rest => ⟨ChordGenerator.ofSeq c0 rest, rfl⟩⟩

/-- C8: counterexample.  For the model trained on [C, G] with L = C, R = G,
rightIndex = 2, genIndex = 1, the scalar power(2)[r][l] is zero, yet
`probability_on` returns Ok with a vector instead of failing with
ZeroProbabilityPath. -/
theorem C8_counterexample :
    naiveTransitPow mCG 2 1 0 = 0 ∧ probOk (probabilityOn 5 mCG [] cC cG 2 1) = some true := by
  constructor
  · with_unfolding_all decide
  · with_unfolding_all decide

/-- C8: amended.  `probability_on` performs no zero-denominator check: even
when the scalar power(rightIndex)[r][l] is zero it still returns Ok with the
division-polluted vector; the failure surfaces only later, at sampling time
in `generate_fill`. -/
theorem C8_zero_path_ok (seq : List Chord) (g : ChordGenerator) (cache : Cache)
    (fuel : ℕ) (L R : Chord) (ri gi l r : ℕ)
    (hg : ChordGenerator.new seq = some g) (hWF : cacheWF g cache)
    (hl : g.map_backward L = some l) (hr : g.map_backward R = some r)
    (h0 : 0 < gi) (h1 : gi < ri) (hf : ri ≤ fuel)
    (hz : naiveTransitPow g ri r l = 0) :
    probOk (probabilityOn fuel g cache L R ri gi) = some true := by
  obtain ⟨c', h, _, _⟩ :=
    probOn_ok g (new_supported seq g hg) fuel cache L R ri gi l r hWF hl hr h0 h1 hf
  rw [h]
  rfl

/-- C8: witness for the amended theorem at the zero-scalar boundary pair. -/
theorem C8_witness :
    naiveTransitPow mCG 2 1 0 = 0 ∧ probOk (probabilityOn 2 mCG [] cC cG 2 1) = some true := by
  have hz : naiveTransitPow mCG 2 1 0 = 0 := by with_unfolding_all decide
  exact ⟨hz, C8_zero_path_ok [cC, cG] mCG [] 2 cC cG 2 1 0 1 rfl (cacheWF_nil mCG)
    (by decide) (by decide) (by decide) (by decide) (by decide) hz⟩

/-- C9: the power cache invariant on a built model: every terminating
`transit_pow` call on a well-formed cache keeps it well-formed (each stored
entry maps an exponent n ≥ 2 to exactly the n-th power of the base matrix, so
exponent 1 is never stored), never removes entries, and leaves key n present
after a call with n > 1; `probability_on` and `generate_fill` also preserve
well-formedness and only ever add entries. -/
theorem C9_cache_invariant (seq : List Chord) (g : ChordGenerator)
    (hg : ChordGenerator.new seq = some g) :
    (∀ fuel n cache M c', cacheWF g cache → transitPow fuel g cache n = some (M, c') →
      cacheWF g c' ∧ (∀ e ∈ cache, e ∈ c') ∧
      (∀ k M2, (k, M2) ∈ c' → 2 ≤ k ∧ M2 = naiveTransitPow g k) ∧
      (1 < n → (n, naiveTransitPow g n) ∈ c'))
  ∧ (∀ fuel cache L R ri gi res c', cacheWF g cache →
      probabilityOn fuel g cache L R ri gi = some (res, c') →
      cacheWF g c' ∧ ∀ e ∈ cache, e ∈ c')
  ∧ (∀ fuel span cache L R r res c', cacheWF g cache →
      generateFill g fuel cache span L R r = some (res, c') →
      cacheWF g c' ∧ ∀ e ∈ cache, e ∈ c') := by
  have hs := new_supported seq g hg
  refine ⟨?_, ?_, ?_⟩
  · intro fuel n cache M c' hWF h
    obtain ⟨hM, hWF2, hext, hmem⟩ := transitPow_sound g hs fuel n cache M c' hWF h
    exact ⟨hWF2, hext, hWF2, hmem⟩
  · intro fuel cache L R ri gi res c' hWF h
    obtain ⟨hWF2, hext, _⟩ := probOn_sound g hs fuel cache L R ri gi res c' hWF h
    exact ⟨hWF2, hext⟩
  · intro fuel span cache L R r res c' hWF h
    exact fill_wf g hs fuel span cache L R r res c' hWF h

/-- C9: witness at the [C, G] model, one `transit_pow(2)` call from the empty
cache. -/
theorem C9_witness :
    ChordGenerator.new [cC, cG] = some mCG
  ∧ cacheWF mCG [(2, matMul mCG.size mCG.transit mCG.transit)]
  ∧ (2, naiveTransitPow mCG 2) ∈ [(2, matMul mCG.size mCG.transit mCG.transit)] := by
  have h := (C9_cache_invariant [cC, cG] mCG rfl).1 2 2 []
    (matMul mCG.size mCG.transit mCG.transit)
    [(2, matMul mCG.size mCG.transit mCG.transit)] (cacheWF_nil mCG) rfl
  exact ⟨rfl, h.1, h.2.2.2 (by decide)⟩

/-- C10: generation is deterministic given the random source: two models built
from the same training sequence with any two well-formed caches and fuel
budgets give the same output sequences from terminating `generate_range` runs
with equal arguments and random sources, and the linear `generate` is a pure
function of the model and its arguments. -/
theorem C10_deterministic (seq : List Chord) (g1 g2 : ChordGenerator) (ca cb : Cache)
    (f1 f2 ri : ℕ) (L R : Chord) (rng : Rng) (o1 o2 : Option (List Chord))
    (hg1 : ChordGenerator.new seq = some g1) (hg2 : ChordGenerator.new seq = some g2)
    (hwa : cacheWF g1 ca) (hwb : cacheWF g2 cb)
    (h1 : rangeOut (generateRange f1 g1 ca L R ri rng) = some o1)
    (h2 : rangeOut (generateRange f2 g2 cb L R ri rng) = some o2) :
    o1 = o2 ∧ ∀ init k r2, g1.generate init k r2 = g2.generate init k r2 := by
  have hgg : g1 = g2 := Option.some.inj (hg1.symm.trans hg2)
  subst hgg
  refine ⟨?_, fun _ _ _ => rfl⟩
  have hs := new_supported seq g1 hg1
  by_cases hri : ri < 2
  · rw [show generateRange f1 g1 ca L R ri rng = none from by
      unfold generateRange; rw [if_pos hri]] at h1
    exact absurd h1 (by simp [rangeOut])
  · cases hga : generateRange f1 g1 ca L R ri rng with
    | none => rw [hga] at h1; exact absurd h1 (by simp [rangeOut])
    | some pa =>
    obtain ⟨ra, ca'⟩ := pa
    cases hgb : generateRange f2 g1 cb L R ri rng with
    | none => rw [hgb] at h2; exact absurd h2 (by simp [rangeOut])
    | some pb =>
    obtain ⟨rb, cb'⟩ := pb
    rw [hga] at h1
    rw [hgb] at h2
    have hfa : generateFill g1 f1 ca (ri - 2) L R rng = some (ra, ca') := by
      rw [← hga]
      unfold generateRange
      rw [if_neg hri]
    have hfb : generateFill g1 f2 cb (ri - 2) L R rng = some (rb, cb') := by
      rw [← hgb]
      unfold generateRange
      rw [if_neg hri]
    have hdet := fill_det g1 hs (ri - 2) f1 f2 ca cb L R rng ra rb ca' cb' hwa hwb hfa hfb
    subst hdet
    simp only [rangeOut, Option.map_some'] at h1 h2
    rw [← Option.some.inj h1, ← Option.some.inj h2]

/-- C10: witness at the [C, G] model, identical empty caches and seeds. -/
theorem C10_witness :
    ChordGenerator.new [cC, cG] = some mCG ∧ cacheWF mCG [] ∧
    rangeOut (generateRange 10 mCG [] cC cC 3 rng0) = some (some [cG]) ∧
    (some [cG] : Option (List Chord)) = some [cG] := by
  have hr : rangeOut (generateRange 10 mCG [] cC cC 3 rng0) = some (some [cG]) := by
    with_unfolding_all decide
  exact ⟨rfl, cacheWF_nil mCG, hr,
    (C10_deterministic [cC, cG] mCG mCG [] [] 10 10 3 cC cC rng0 (some [cG]) (some [cG])
      rfl rfl (cacheWF_nil mCG) (cacheWF_nil mCG) hr hr).1⟩
